import Mathlib

/-!
# Verification of the pydb append-only log core

A shallow embedding of the core of `pydb` (an embedded append-only-log
key-value store) together with proofs about it.  Byte strings are modelled
as `List Nat` (each element a byte value), fallible operations return
`Except`, and the stateful file/engine code is modelled by explicit state
passing.  Every definition is translated from the Python source under
`src/pydb`; the few places where external (CPython / POSIX) semantics are
involved are marked in the comments.
-/

namespace PyDb

/-- A byte string: the model of Python `bytes` (each entry is one byte value). -/
abbrev Bytes := List Nat

/-- `pydb.core.storage.logger.AppendOnlyLogOperation`: `SET = 0`, `DELETE = 1`. -/
inductive AppendOnlyLogOperation where
  | SET
  | DELETE
deriving DecidableEq, Repr

/-- The `IntEnum` value of an operation (`SET = 0`, `DELETE = 1`). -/
def AppendOnlyLogOperation.value : AppendOnlyLogOperation → Nat
  | .SET => 0
  | .DELETE => 1

/-- `AppendOnlyLogOperation(op_value)`: the enum constructor, `None` models the
`ValueError` raised for a value outside `{0, 1}`. -/
def operationOfValue : Nat → Option AppendOnlyLogOperation
  | 0 => some .SET
  | 1 => some .DELETE
  | _ => none

/-- One `Q` field of `Struct("BQQ").pack` on the reference platform (x86-64
Linux CPython): the 8-byte little-endian encoding of `n` (for `n < 2^64`;
`struct.pack` raises for larger values, which the size fields never are). -/
def packQ (n : Nat) : Bytes :=
  [n % 256, n / 256 % 256, n / 256 ^ 2 % 256, n / 256 ^ 3 % 256,
   n / 256 ^ 4 % 256, n / 256 ^ 5 % 256, n / 256 ^ 6 % 256, n / 256 ^ 7 % 256]

/-- One `Q` field of `Struct("BQQ").unpack`: read a little-endian byte list. -/
def unpackQ (bs : Bytes) : Nat :=
  bs.foldr (fun b acc => b + 256 * acc) 0

/-- `AppendOnlyLogHeader.STRUCT.size`, i.e. `struct.calcsize("BQQ")`.  The
format string has no byte-order prefix, so CPython uses native size and
alignment: on x86-64 the `B` is followed by 7 padding bytes so that each `Q`
is 8-byte aligned, giving `1 + 7 + 8 + 8 = 24` (not 17). -/
def HEADER_SIZE : Nat := 24

/-- `pydb.core.storage.logger.AppendOnlyLogHeader`. -/
structure AppendOnlyLogHeader where
  operation : AppendOnlyLogOperation
  key_size : Nat
  value_size : Nat
deriving DecidableEq, Repr

/-- `AppendOnlyLogHeader.payload_size`. -/
def AppendOnlyLogHeader.payload_size (h : AppendOnlyLogHeader) : Nat :=
  h.key_size + h.value_size

/-- `AppendOnlyLogHeader.record_size`. -/
def AppendOnlyLogHeader.record_size (h : AppendOnlyLogHeader) : Nat :=
  HEADER_SIZE + h.payload_size

/-- `AppendOnlyLogHeader.to_bytes`, i.e.
`Struct("BQQ").pack(operation, key_size, value_size)` on x86-64: the
operation byte, 7 alignment padding zero bytes, then the two sizes as
little-endian u64. -/
def AppendOnlyLogHeader.to_bytes (h : AppendOnlyLogHeader) : Bytes :=
  h.operation.value :: 0 :: 0 :: 0 :: 0 :: 0 :: 0 :: 0 ::
    (packQ h.key_size ++ packQ h.value_size)

/-- `AppendOnlyLogHeader.from_bytes` applied to a (24-byte) buffer:
unpack `B` at offset 0 and the two `Q`s at offsets 8 and 16; `none` models
the `LogStorageError` raised when the operation value is not in `{0, 1}`. -/
def AppendOnlyLogHeader.from_bytes (data : Bytes) : Option AppendOnlyLogHeader :=
  match operationOfValue (data.getD 0 0) with
  | none => none
  | some op => some ⟨op, unpackQ ((data.drop 8).take 8), unpackQ ((data.drop 16).take 8)⟩

/-- `pydb.core.storage.logger.AppendOnlyLogPayload`. -/
structure AppendOnlyLogPayload where
  key : Bytes
  value : Bytes
deriving DecidableEq, Repr

/-- `AppendOnlyLogPayload.to_bytes`: `key + value`. -/
def AppendOnlyLogPayload.to_bytes (p : AppendOnlyLogPayload) : Bytes :=
  p.key ++ p.value

/-- `pydb.core.storage.logger.AppendOnlyLogRecord`. -/
structure AppendOnlyLogRecord where
  header : AppendOnlyLogHeader
  payload : AppendOnlyLogPayload
deriving DecidableEq, Repr

/-- The bytes a record puts on disk: `to_stream` writes `header.to_bytes()`
followed by `payload.to_bytes()`, i.e. this concatenation. -/
def AppendOnlyLogRecord.to_bytes (r : AppendOnlyLogRecord) : Bytes :=
  r.header.to_bytes ++ r.payload.to_bytes

/-- The record built by `AppendOnlyLogStorage._append_record`: header sizes
are the actual key/value lengths. -/
def mkRecord (op : AppendOnlyLogOperation) (key value : Bytes) : AppendOnlyLogRecord :=
  ⟨⟨op, key.length, value.length⟩, ⟨key, value⟩⟩

/-- A record whose header sizes agree with its payload and fit in the `Q`
fields (`struct.pack` raises beyond `2^64`, and `_append_record` always
builds records this way). -/
def AppendOnlyLogRecord.wf (r : AppendOnlyLogRecord) : Prop :=
  r.header.key_size = r.payload.key.length ∧
  r.header.value_size = r.payload.value.length ∧
  r.payload.key.length < 2 ^ 64 ∧
  r.payload.value.length < 2 ^ 64

instance (r : AppendOnlyLogRecord) : Decidable r.wf := by
  unfold AppendOnlyLogRecord.wf
  infer_instance

/-- The cause recorded in a `LogCorruptedError`. -/
inductive CorruptCause where
  | truncatedHeader
  | truncatedPayload
  | invalidOperation
deriving DecidableEq, Repr

/-- `pydb.core.storage.logger.LogCorruptedError` (offset where decoding
began, plus the cause). -/
structure LogCorruptedError where
  offset : Nat
  cause : CorruptCause
deriving DecidableEq, Repr

/-- `handle.read(size)` at position `pos` of a file with contents `content`:
up to `size` bytes starting at `pos` (empty at or past EOF). -/
def readAt (content : Bytes) (pos size : Nat) : Bytes :=
  (content.drop pos).take size

/-- `AppendOnlyLogRecord.from_stream` over a stream whose contents are
`content` and whose current position is `pos`.  Returns `none` at clean EOF
(zero header bytes), the decoded record and the position after it on
success.  The `invalidOperation` case models `AppendOnlyLogHeader.from_bytes`
raising inside the `try` block, which `from_stream` wraps into a
`LogCorruptedError` at the record's offset. -/
def AppendOnlyLogRecord.from_stream (content : Bytes) (pos : Nat) :
    Except LogCorruptedError (Option (AppendOnlyLogRecord × Nat)) :=
  let header_bytes := readAt content pos HEADER_SIZE
  if header_bytes.isEmpty then .ok none
  else if header_bytes.length < HEADER_SIZE then .error ⟨pos, .truncatedHeader⟩
  else
    match AppendOnlyLogHeader.from_bytes header_bytes with
    | none => .error ⟨pos, .invalidOperation⟩
    | some header =>
      let payload_bytes := readAt content (pos + HEADER_SIZE) header.payload_size
      if payload_bytes.length ≠ header.payload_size then .error ⟨pos, .truncatedPayload⟩
      else
        .ok (some (⟨header, ⟨payload_bytes.take header.key_size,
                             payload_bytes.drop header.key_size⟩⟩,
                   pos + HEADER_SIZE + header.payload_size))

/-- `pydb.core.index.in_memory.InMemoryIndex`: its `_offset_table` dict,
modelled as a function from keys to optional offsets. -/
def Index : Type := Bytes → Option Nat

/-- `InMemoryIndex()`: the empty table. -/
def Index.empty : Index := fun _ => none

/-- `InMemoryIndex.set`: insert or overwrite. -/
def Index.set (idx : Index) (key : Bytes) (offset : Nat) : Index :=
  fun k => if k = key then some offset else idx k

/-- `InMemoryIndex.delete`: remove if present (idempotent). -/
def Index.delete (idx : Index) (key : Bytes) : Index :=
  fun k => if k = key then none else idx k

/-- `InMemoryIndex.has`. -/
def Index.has (idx : Index) (key : Bytes) : Bool :=
  (idx key).isSome

/-- `AppendOnlyLogStorage._build_index`'s `while True` loop, reading records
from `content` starting at `pos` and folding them into `idx` (`SET` stores
the record's start offset, `DELETE` removes the key).  The loop is written
with explicit fuel; each successful decode advances the position by at least
`HEADER_SIZE`, so `content.length + 1` steps always suffice and the fuel-out
branch (which returns the index built so far) is never reached when called
through `buildIndex`. -/
def buildIndexGo (content : Bytes) : Nat → Nat → Index →
    Except LogCorruptedError Index
  | 0, _, idx => .ok idx
  | fuel + 1, pos, idx =>
    match AppendOnlyLogRecord.from_stream content pos with
    | .error e => .error e
    | .ok none => .ok idx
    | .ok (some (r, pos')) =>
      match r.header.operation with
      | .DELETE => buildIndexGo content fuel pos' (idx.delete r.payload.key)
      | .SET => buildIndexGo content fuel pos' (idx.set r.payload.key pos)

/-- `AppendOnlyLogStorage._build_index` run from stream position `pos`. -/
def buildIndex (content : Bytes) (pos : Nat) (idx : Index) :
    Except LogCorruptedError Index :=
  buildIndexGo content (content.length + 1) pos idx

/-- `pydb.interface.file.OpenFileMode`: the closed set of open modes. -/
inductive OpenFileMode where
  | rb
  | ab
  | rpb
  | apb
  | wb
  | wpb
deriving DecidableEq, Repr

/-- `"r" in mode`. -/
def OpenFileMode.hasR : OpenFileMode → Bool
  | .rb | .rpb => true
  | _ => false

/-- `"a" in mode`. -/
def OpenFileMode.hasA : OpenFileMode → Bool
  | .ab | .apb => true
  | _ => false

/-- `"w" in mode`. -/
def OpenFileMode.hasW : OpenFileMode → Bool
  | .wb | .wpb => true
  | _ => false

/-- `"+" in mode`. -/
def OpenFileMode.hasPlus : OpenFileMode → Bool
  | .rpb | .apb | .wpb => true
  | _ => false

/-- `handle.write(data)` on a CPython binary file handle: in append modes the
OS (`O_APPEND`) writes at the physical end of file regardless of the current
position and the position moves to the new end; otherwise the write happens
at the current position, zero-filling any gap beyond EOF.  Returns the new
contents and position. -/
def handleWrite (mode : OpenFileMode) (content : Bytes) (pos : Nat) (data : Bytes) :
    Bytes × Nat :=
  if mode.hasA then (content ++ data, content.length + data.length)
  else (content.take pos ++ List.replicate (pos - content.length) 0 ++ data ++
          content.drop (pos + data.length),
        pos + data.length)

/-- `handle.read(size)` on a CPython binary file handle at position `pos`:
a negative size reads to EOF, otherwise up to `size` bytes. -/
def handleRead (content : Bytes) (pos : Nat) (size : Int) : Bytes :=
  if size < 0 then content.drop pos else readAt content pos size.toNat

/-- `os.SEEK_SET` / `os.SEEK_CUR` / `os.SEEK_END`. -/
inductive Whence where
  | seekSet
  | seekCur
  | seekEnd
deriving DecidableEq, Repr

/-- The position `handle.seek(offset, whence)` resolves to, as an integer
(before the OS accepts or rejects it). -/
def resolveWhence (size pos : Nat) (offset : Int) : Whence → Int
  | .seekSet => offset
  | .seekCur => (pos : Int) + offset
  | .seekEnd => (size : Int) + offset

/-- `handle.seek` on a CPython binary file handle over a POSIX fd: `lseek`
fails with `EINVAL` (an `OSError`) when the resolved position is negative;
positions beyond EOF are accepted as-is (no clamping). -/
def osSeek (size pos : Nat) (offset : Int) (whence : Whence) : Except Unit Nat :=
  let target := resolveWhence size pos offset whence
  if target < 0 then .error () else .ok target.toNat

/-- The error kinds the file backends surface. -/
inductive FileError where
  | notOpen
  | invalidArgument
  | notWritable
  | notReadable
  | noSegments
deriving DecidableEq, Repr

/-- `pydb.core.file.monolith.MonolithicFile`: a single OS file handle.  The
construction-time checks (non-empty tablespace, existing directory, valid
mode) are not part of the state; `content` models the backing file's bytes. -/
structure MonolithicFile where
  mode : OpenFileMode
  content : Bytes
  pos : Nat
  isOpen : Bool
deriving DecidableEq, Repr

/-- `MonolithicFile.__enter__`: a no-op when already open, otherwise
`open(path, mode)` — `w` modes truncate, `a` modes position at EOF,
`r` modes position at 0 (the file is created empty first when missing). -/
def MonolithicFile.enter (m : MonolithicFile) : MonolithicFile :=
  if m.isOpen then m
  else
    let content := if m.mode.hasW then [] else m.content
    { m with
      content := content
      pos := if m.mode.hasA then content.length else 0
      isOpen := true }

/-- `MonolithicFile.close` (also `__exit__`). -/
def MonolithicFile.close (m : MonolithicFile) : MonolithicFile :=
  { m with isOpen := false }

/-- `MonolithicFile.write`: delegates to the handle (`RuntimeError` when not
open, modelled as `notOpen`). -/
def MonolithicFile.write (m : MonolithicFile) (data : Bytes) :
    Except FileError (Nat × MonolithicFile) :=
  if !m.isOpen then .error .notOpen
  else
    let (content, pos) := handleWrite m.mode m.content m.pos data
    .ok (data.length, { m with content := content, pos := pos })

/-- `MonolithicFile.read`: delegates to the handle. -/
def MonolithicFile.read (m : MonolithicFile) (size : Int) :
    Except FileError (Bytes × MonolithicFile) :=
  if !m.isOpen then .error .notOpen
  else
    let chunk := handleRead m.content m.pos size
    .ok (chunk, { m with pos := m.pos + chunk.length })

/-- `MonolithicFile.seek`: delegates 1:1 to the OS handle, so a negative
resolved position is an `OSError` (`invalidArgument`), not a clamp. -/
def MonolithicFile.seek (m : MonolithicFile) (offset : Int) (whence : Whence) :
    Except FileError (Nat × MonolithicFile) :=
  if !m.isOpen then .error .notOpen
  else
    match osSeek m.content.length m.pos offset whence with
    | .error _ => .error .invalidArgument
    | .ok p => .ok (p, { m with pos := p })

/-- `MonolithicFile.tell`. -/
def MonolithicFile.tell (m : MonolithicFile) : Except FileError Nat :=
  if !m.isOpen then .error .notOpen else .ok m.pos

/-- The error kinds `AppendOnlyLogStorage` surfaces
(`LogKeyNotFoundError`, `LogInvalidOffsetError`, `LogCorruptedError`). -/
inductive LogError where
  | keyNotFound (key : Bytes)
  | invalidOffset (offset : Nat)
  | corrupted (e : LogCorruptedError)
deriving DecidableEq, Repr

/-- The observable state of an `AppendOnlyLogStorage` between public calls:
the backing (monolithic, `"a+b"`) log file's bytes and the in-memory index.
The file is closed between calls — the constructor and every public method
wrap their work in `with self._file:`. -/
structure EngineState where
  log : Bytes
  index : Index

/-- `AppendOnlyLogStorage.__init__` over a monolithic file opened in `mode`:
`with self._file: self._build_index(); self._file.seek(0, SEEK_END)`.
There is no seek before the scan, so `_build_index` starts at whatever
position `open` left the handle at (end of file in `a` modes). -/
def engineInit (mode : OpenFileMode) (content : Bytes) (idx : Index) :
    Except LogCorruptedError EngineState :=
  let f := (MonolithicFile.mk mode content 0 false).enter
  match buildIndex f.content f.pos idx with
  | .error e => .error e
  | .ok idx' => .ok ⟨f.content, idx'⟩

/-- `AppendOnlyLogStorage.set` (over a monolithic `"a+b"` file): within the
scoped open, `_append_record` remembers `tell()` and streams the record
(header write, then payload write); afterwards the index maps the key to
that offset. -/
def engineSet (st : EngineState) (key value : Bytes) : EngineState :=
  let f := (MonolithicFile.mk .apb st.log 0 false).enter
  let offset := f.pos
  let r := mkRecord .SET key value
  let (c1, p1) := handleWrite .apb f.content f.pos r.header.to_bytes
  let (c2, _) := handleWrite .apb c1 p1 r.payload.to_bytes
  { log := c2, index := st.index.set key offset }

/-- `AppendOnlyLogStorage.delete`: a no-op when the index lacks the key,
otherwise append a `DELETE` record with empty value and drop the key from
the index. -/
def engineDelete (st : EngineState) (key : Bytes) : EngineState :=
  if !st.index.has key then st
  else
    let f := (MonolithicFile.mk .apb st.log 0 false).enter
    let r := mkRecord .DELETE key []
    let (c1, p1) := handleWrite .apb f.content f.pos r.header.to_bytes
    let (c2, _) := handleWrite .apb c1 p1 r.payload.to_bytes
    { log := c2, index := st.index.delete key }

/-- `AppendOnlyLogStorage.get`: consult the index (absent key, or an index
lookup failing underneath, is `LogKeyNotFoundError`); `_load_record_at`
seeks to the stored offset and decodes one record; a key mismatch evicts
the stale entry and raises `LogInvalidOffsetError`. -/
def engineGet (st : EngineState) (key : Bytes) : Except LogError Bytes × EngineState :=
  if !st.index.has key then (.error (.keyNotFound key), st)
  else
    match st.index key with
    | none => (.error (.keyNotFound key), st)
    | some offset =>
      match AppendOnlyLogRecord.from_stream st.log offset with
      | .error e => (.error (.corrupted e), st)
      | .ok none => (.error (.invalidOffset offset), st)
      | .ok (some (r, _)) =>
        if r.payload.key = key then (.ok r.payload.value, st)
        else (.error (.invalidOffset offset), { st with index := st.index.delete key })

/-- A log as a list of records; its on-disk image is the end-to-end
concatenation of their encodings. -/
def encodeLog : List AppendOnlyLogRecord → Bytes
  | [] => []
  | r :: rs => r.to_bytes ++ encodeLog rs

/-- The records of a log paired with their start offsets, the first record
starting at `base`. -/
def logWithOffsets : List AppendOnlyLogRecord → Nat → List (AppendOnlyLogRecord × Nat)
  | [], _ => []
  | r :: rs, base => (r, base) :: logWithOffsets rs (base + r.header.record_size)

/-- Modelled from the spec's words ("the final index state is the last
observed operation per key"): the last record for `k` in log order decides —
a `SET` yields its start offset, a `DELETE` yields nothing, and a key with
no record keeps whatever the initial index said (`dflt`). -/
def lastObservedOffsetSpec (entries : List (AppendOnlyLogRecord × Nat))
    (dflt : Option Nat) (k : Bytes) : Option Nat :=
  match entries.reverse.find? (fun e => e.1.payload.key == k) with
  | some (r, off) => if r.header.operation = .SET then some off else none
  | none => dflt

/-- Total size of a list of segment contents (the source computes
`sum(s.size for s in segments)` from the files on disk). -/
def sumSizes (segs : List Bytes) : Nat :=
  (segs.map List.length).sum

/-- `pydb.core.file.segment.SegmentedFile`: `segments` holds the contents of
the segment files in ascending index order (the `Segment` descriptors read
their sizes from disk, so sizes here are the current list entries' lengths);
`cur` is `_current_segment_index` as a position in that list, `pos` the
active handle's local position, `base` the cached
`_current_segment_base_offset`, and `isOpen` models `_file is not None and
not _file.closed`. -/
structure SegmentedFile where
  mode : OpenFileMode
  maxSize : Nat
  segments : List Bytes
  cur : Nat
  pos : Nat
  base : Nat
  isOpen : Bool
deriving DecidableEq, Repr

/-- `open(segment.path, mode)`: `w` modes truncate, `a` modes position at
EOF, `r` modes position at 0. -/
def openSegment (mode : OpenFileMode) (content : Bytes) : Bytes × Nat :=
  if mode.hasW then ([], 0)
  else if mode.hasA then (content, content.length)
  else (content, 0)

/-- `SegmentedFile._activate_segment` (its callers always pass an in-bounds
index; the source raises `IndexError` otherwise): close the current handle,
open segment `i` with the backend's mode (truncating it in `w` modes), and
recompute the cached base offset as the sum of the sizes of the segments
strictly before `i`. -/
def SegmentedFile.activate (st : SegmentedFile) (i : Nat) : SegmentedFile :=
  let handle := openSegment st.mode (st.segments.getD i [])
  let segments := st.segments.set i handle.1
  { st with
    segments := segments
    cur := i
    pos := handle.2
    base := sumSizes (segments.take i)
    isOpen := true }

/-- `SegmentedFile._create_and_activate_next_segment`: touch a fresh empty
segment file with the next index, append it to the list, activate it. -/
def SegmentedFile.createNext (st : SegmentedFile) : SegmentedFile :=
  let segments := st.segments ++ [[]]
  SegmentedFile.activate { st with segments := segments } (segments.length - 1)

/-- The `while total_written < len(data)` loop of `SegmentedFile.write`:
compute `space_left = max_size - handle.tell()`, roll over to a fresh
segment when it is not positive, then write
`min(remaining, space_left)` bytes through the handle.  Written with
explicit fuel; every iteration with positive `maxSize` consumes at least one
byte of `data`, so the fuel passed by `SegmentedFile.write`
(`data.length + 1`) always suffices (with `maxSize = 0`, which the
constructor rejects, the source loops forever and the fuel-out branch is the
deviation).  Returns the final state and the total bytes written. -/
def writeLoopGo : Nat → SegmentedFile → Bytes → SegmentedFile × Nat
  | 0, st, _ => (st, 0)
  | _ + 1, st, [] => (st, 0)
  | fuel + 1, st, d :: ds =>
    let st1 := if st.maxSize ≤ st.pos then st.createNext else st
    let data := d :: ds
    let chunkLen := min data.length (st1.maxSize - st1.pos)
    let written :=
      handleWrite st1.mode (st1.segments.getD st1.cur []) st1.pos (data.take chunkLen)
    let st2 := { st1 with segments := st1.segments.set st1.cur written.1, pos := written.2 }
    let next := writeLoopGo fuel st2 (data.drop chunkLen)
    (next.1, chunkLen + next.2)

/-- `SegmentedFile.write`: forbidden in mode `rb`, requires an open handle,
then runs the write loop. -/
def SegmentedFile.write (st : SegmentedFile) (data : Bytes) :
    Except FileError (Nat × SegmentedFile) :=
  if st.mode.hasR && !st.mode.hasPlus then .error .notWritable
  else if !st.isOpen then .error .notOpen
  else
    let done := writeLoopGo (data.length + 1) st data
    .ok (done.2, done.1)

/-- The read loop of `SegmentedFile.read`: read from the active handle; on a
short or empty result advance to the next segment of the list when one
exists, else stop.  Fuel: every iteration either consumes a byte of the
current segment contents (which only ever shrink) or advances `cur`, so
`sumSizes + segments.length + 2` steps suffice. -/
def readLoopGo : Nat → SegmentedFile → Int → Nat → Bytes × SegmentedFile
  | 0, st, _, _ => ([], st)
  | fuel + 1, st, size, bytesRead =>
    if size = -1 ∨ (bytesRead : Int) < size then
      let request : Int := if size = -1 then -1 else size - (bytesRead : Int)
      let chunk := handleRead (st.segments.getD st.cur []) st.pos request
      let st1 := { st with pos := st.pos + chunk.length }
      if chunk.isEmpty || (size ≠ -1 && (chunk.length : Int) < request) then
        if st1.cur + 1 < st1.segments.length then
          let next :=
            readLoopGo fuel (st1.activate (st1.cur + 1)) size (bytesRead + chunk.length)
          (chunk ++ next.1, next.2)
        else (chunk, st1)
      else
        let next := readLoopGo fuel st1 size (bytesRead + chunk.length)
        (chunk ++ next.1, next.2)
    else ([], st)

/-- `SegmentedFile.read`: forbidden in mode `wb`, requires an open handle. -/
def SegmentedFile.read (st : SegmentedFile) (size : Int) :
    Except FileError (Bytes × SegmentedFile) :=
  if st.mode.hasW && !st.mode.hasPlus then .error .notReadable
  else if !st.isOpen then .error .notOpen
  else .ok (readLoopGo (sumSizes st.segments + st.segments.length + 2) st size 0)

/-- The segment-scanning loop of `SegmentedFile.seek`: the first segment
whose cumulative range `[acc, acc + size)` contains `T`, together with that
`acc`. -/
def findSegment : List Bytes → Nat → Nat → Nat → Option (Nat × Nat)
  | [], _, _, _ => none
  | c :: rest, T, i, acc =>
    if acc ≤ T ∧ T < acc + c.length then some (i, acc)
    else findSegment rest T (i + 1) (acc + c.length)

/-- `SegmentedFile.seek`: resolve the whence, clamp negatives to 0
(`max(0, target)`), then: stay within the active segment when its
`[base, base + size]` range contains the target; otherwise activate the
first segment whose cumulative range contains it; otherwise (target past the
end of everything) activate the last segment and seek its handle to
`target - base` — which the OS accepts even beyond that segment's EOF — or,
with no segments at all, create one in `w`/`a` modes (returning the target)
and return 0 otherwise.  The `target_global_offset` resolution is split out
as `resolveTarget` (`tell()` for `SEEK_CUR`, the summed sizes for
`SEEK_END`). -/
def SegmentedFile.resolveTarget (st : SegmentedFile) (offset : Int) : Whence → Int
  | .seekSet => offset
  | .seekCur => ((st.base + st.pos : Nat) : Int) + offset
  | .seekEnd => ((sumSizes st.segments : Nat) : Int) + offset

def SegmentedFile.seek (st : SegmentedFile) (offset : Int) (whence : Whence) :
    Except FileError (Nat × SegmentedFile) :=
  if !st.isOpen then .error .notOpen
  else
    let target : Int := st.resolveTarget offset whence
    let T : Nat := target.toNat
    let currSize := (st.segments.getD st.cur []).length
    if st.base ≤ T ∧ T ≤ st.base + currSize then
      .ok (T, { st with pos := T - st.base })
    else
      match findSegment st.segments T 0 0 with
      | some (i, acc) =>
        let st1 := st.activate i
        .ok (T, { st1 with pos := T - acc })
      | none =>
        if st.segments.isEmpty then
          if st.mode.hasW || st.mode.hasA then .ok (T, st.createNext)
          else .ok (0, st)
        else
          let st1 := st.activate (st.segments.length - 1)
          .ok (T, { st1 with pos := T - st1.base })

/-- `SegmentedFile.tell`: the global position
`_current_segment_base_offset + handle.tell()` (state unchanged). -/
def SegmentedFile.tell (st : SegmentedFile) : Except FileError (Nat × SegmentedFile) :=
  if !st.isOpen then .error .notOpen else .ok (st.base + st.pos, st)

/-- `SegmentedFile.close` (also `__exit__`). -/
def SegmentedFile.close (st : SegmentedFile) : SegmentedFile :=
  { st with isOpen := false }

/-- `SegmentedFile.__enter__`: a no-op when already open; otherwise delete
every segment file in `w` modes (else reload the list from the directory,
which the state already models), then create segment 0 if none exist and the
mode allows it (`FileNotFoundError` otherwise), or activate the last segment
positioned at its end in `a` modes, or activate the first segment positioned
at 0. -/
def SegmentedFile.enter (st : SegmentedFile) : Except FileError SegmentedFile :=
  if st.isOpen then .ok st
  else
    let st1 := if st.mode.hasW then { st with segments := [] } else st
    if st1.segments.isEmpty then
      if st.mode.hasW || st.mode.hasA then .ok st1.createNext
      else .error .noSegments
    else
      if st.mode.hasA then
        let st2 := st1.activate (st1.segments.length - 1)
        .ok { st2 with pos := (st2.segments.getD st2.cur []).length }
      else
        let st2 := st1.activate 0
        .ok { st2 with pos := 0 }

/-- The implicit well-formedness of an open `SegmentedFile` (claim C9): a
non-empty segment list, an in-bounds active segment, and a cached base
offset equal to the sum of the sizes of the segments strictly before the
active one. -/
def SegInv (st : SegmentedFile) : Prop :=
  st.isOpen = true →
    st.segments ≠ [] ∧
    st.cur < st.segments.length ∧
    st.base = sumSizes (st.segments.take st.cur)

instance (st : SegmentedFile) : Decidable (SegInv st) := by
  unfold SegInv
  infer_instance

/-- The precondition under which the write loop respects the segment cap
(claim C6, amended): every segment within the cap, a valid active segment,
the handle position within the active segment's contents, and — because an
`O_APPEND` write lands at the physical end while `space_left` is computed
from `tell()` — in append modes the position must be exactly the active
segment's end (which is where scoped open leaves it; an intervening
`seek` backwards is what breaks this, see the C6 counterexample). -/
def WriteCapInv (st : SegmentedFile) : Prop :=
  (∀ c ∈ st.segments, c.length ≤ st.maxSize) ∧
  st.cur < st.segments.length ∧
  st.pos ≤ (st.segments.getD st.cur []).length ∧
  (st.mode.hasA = true → st.pos = (st.segments.getD st.cur []).length)

instance (st : SegmentedFile) : Decidable (WriteCapInv st) := by
  unfold WriteCapInv
  infer_instance

/-- A character of the `[a-zA-Z0-9_-]` class of `SEGMENT_PATTERN`. -/
def isWordChar (c : Char) : Bool :=
  c.isAlphanum || c = '_' || c = '-'

/-- `f"{index:010d}"`: the index zero-padded to 10 decimal digits. -/
def padIndex (n : Nat) : List Char :=
  let s := Nat.toDigits 10 n
  List.replicate (10 - s.length) '0' ++ s

/-- `Segment.__post_init__`'s filename: `f"{tablespace}_{index:010d}.dblog"`. -/
def segmentFilename (tablespace : List Char) (index : Nat) : List Char :=
  tablespace ++ ['_'] ++ padIndex index ++ ".dblog".toList

/-- The numeric value of a run of decimal digit characters (`int(...)` on the
regex group). -/
def digitsToNat (ds : List Char) : Nat :=
  ds.foldl (fun acc c => acc * 10 + (c.toNat - '0'.toNat)) 0

/-- `SEGMENT_PATTERN.match` on a filename:
`^(?P<tablespace>[a-zA-Z0-9_-]+)_(?P<index>\d{10})\.dblog$`.  The suffix
`"_" + 10 digits + ".dblog"` has fixed length 17, so the decomposition is
unique and greedy matching is irrelevant: the tablespace group is everything
before the last 17 characters.  Returns the captured `(tablespace, index)`;
`none` models a failed match (`Segment.from_filepath` raising `ValueError`). -/
def parseSegmentName (name : List Char) : Option (List Char × Nat) :=
  if name.length < 18 then none
  else
    let tspace := name.take (name.length - 17)
    let rest := name.drop (name.length - 17)
    let digits := (rest.drop 1).take 10
    if tspace.all isWordChar && rest.take 1 = ['_'] &&
        digits.all Char.isDigit && rest.drop 11 = ".dblog".toList then
      some (tspace, digitsToNat digits)
    else none

/-- `self._directory.glob(f"{self._tablespace}_*.dblog")` applied to one
directory entry: the `*` wildcard matches any (possibly empty) run of
characters, so the glob accepts exactly the names that start with
`tablespace + "_"` and end with `".dblog"` (without overlap). -/
def globMatchesSegment (tablespace : List Char) (name : List Char) : Bool :=
  (tablespace ++ ['_']).isPrefixOf name &&
  ".dblog".toList.isSuffixOf name &&
  decide (tablespace.length + 1 + 6 ≤ name.length)

/-- `SegmentedFile._load_segments` at the filename level: glob the directory
listing, parse each hit with `Segment.from_filepath` (silently skipping
parse failures), and sort by index.  Each surviving entry is the parsed
`(tablespace, index)` pair — note the parsed tablespace is never compared
with the backend's own. -/
def loadSegments (tablespace : List Char) (dirFiles : List (List Char)) :
    List (List Char × Nat) :=
  ((dirFiles.filter (globMatchesSegment tablespace)).filterMap
      parseSegmentName).mergeSort (fun a b => decide (a.2 ≤ b.2))

theorem packQ_length (n : Nat) : (packQ n).length = 8 := rfl

theorem unpackQ_packQ (n : Nat) : unpackQ (packQ n) = n % 2 ^ 64 := by
  unfold unpackQ packQ
  simp only [List.foldr]
  norm_num
  omega

theorem headerToBytes_length (h : AppendOnlyLogHeader) :
    h.to_bytes.length = HEADER_SIZE := by
  simp [AppendOnlyLogHeader.to_bytes, packQ, HEADER_SIZE]

theorem from_bytes_to_bytes (op : AppendOnlyLogOperation) (ks vs : Nat)
    (hk : ks < 2 ^ 64) (hv : vs < 2 ^ 64) :
    AppendOnlyLogHeader.from_bytes (AppendOnlyLogHeader.mk op ks vs).to_bytes =
      some ⟨op, ks, vs⟩ := by
  unfold AppendOnlyLogHeader.from_bytes
  have h0 : ((AppendOnlyLogHeader.mk op ks vs).to_bytes).getD 0 0 = op.value := rfl
  have h8 : (((AppendOnlyLogHeader.mk op ks vs).to_bytes).drop 8).take 8 = packQ ks := rfl
  have h16 : (((AppendOnlyLogHeader.mk op ks vs).to_bytes).drop 16).take 8 = packQ vs := rfl
  rw [h0, h8, h16, unpackQ_packQ, unpackQ_packQ,
    Nat.mod_eq_of_lt hk, Nat.mod_eq_of_lt hv]
  cases op <;> rfl

theorem recordToBytes_length (r : AppendOnlyLogRecord) (hwf : r.wf) :
    r.to_bytes.length = r.header.record_size := by
  obtain ⟨h1, h2, _, _⟩ := hwf
  simp [AppendOnlyLogRecord.to_bytes, AppendOnlyLogPayload.to_bytes,
    headerToBytes_length, AppendOnlyLogHeader.record_size,
    AppendOnlyLogHeader.payload_size, h1, h2]

theorem from_stream_encode (content : Bytes) (pos : Nat) (r : AppendOnlyLogRecord)
    (rest : Bytes) (hwf : r.wf) (hsplit : content.drop pos = r.to_bytes ++ rest) :
    AppendOnlyLogRecord.from_stream content pos =
      .ok (some (r, pos + r.header.record_size)) := by
  obtain ⟨⟨op, ks, vs⟩, key, value⟩ := r
  obtain ⟨h1, h2, h3, h4⟩ := hwf
  simp [AppendOnlyLogHeader.payload_size] at h1 h2 h3 h4
  subst h1
  subst h2
  have hlenH : (AppendOnlyLogHeader.mk op key.length value.length).to_bytes.length =
      HEADER_SIZE := headerToBytes_length _
  have hsplit' : content.drop pos =
      (AppendOnlyLogHeader.mk op key.length value.length).to_bytes ++
        ((key ++ value) ++ rest) := by
    simpa [AppendOnlyLogRecord.to_bytes, AppendOnlyLogPayload.to_bytes] using hsplit
  have hheader : readAt content pos HEADER_SIZE =
      (AppendOnlyLogHeader.mk op key.length value.length).to_bytes := by
    rw [readAt, hsplit', ← hlenH, List.take_left]
  have hdropH : content.drop (pos + HEADER_SIZE) = (key ++ value) ++ rest := by
    rw [← List.drop_drop, hsplit', ← hlenH, List.drop_left]
  have hpayload : readAt content (pos + HEADER_SIZE) (key.length + value.length) =
      key ++ value := by
    rw [readAt, hdropH]
    have : (key ++ value).length = key.length + value.length := by simp
    rw [← this, List.take_left]
  rw [AppendOnlyLogRecord.from_stream]
  simp only [hheader, hlenH]
  rw [from_bytes_to_bytes op key.length value.length h3 h4]
  simp only [AppendOnlyLogHeader.payload_size, hpayload]
  have hempty : ((AppendOnlyLogHeader.mk op key.length value.length).to_bytes).isEmpty =
      false := by
    cases op <;> rfl
  simp [hempty, hlenH, HEADER_SIZE, AppendOnlyLogHeader.record_size,
    AppendOnlyLogHeader.payload_size, List.take_left, List.drop_left,
    Nat.add_assoc]

/-- Claim C1 (counterexample): the record that `set(b"", b"")` writes does
not occupy 17 bytes — `Struct("BQQ")` has native alignment, so the header
alone is 24 bytes. -/
theorem c1_empty_record_not_17_bytes :
    ((mkRecord .SET [] []).to_bytes).length ≠ 17 := by decide

/-- Claim C1 (amended): the log record header is exactly 24 bytes (the
native-aligned `(u8, u64, u64)` layout: 1 operation byte, 7 padding bytes,
two little-endian u64 sizes), every record's on-disk extent is
`24 + key_size + value_size` contiguous bytes — in particular `set` grows
the log by exactly that much — and the record produced by `set(b"", b"")`
is exactly 24 zero bytes. -/
theorem c1_header_and_record_extent (st : EngineState)
    (h : AppendOnlyLogHeader) (key value : Bytes) :
    h.to_bytes.length = 24 ∧
    (mkRecord .SET key value).to_bytes.length = 24 + key.length + value.length ∧
    (engineSet st key value).log.length = st.log.length + (24 + key.length + value.length) ∧
    (mkRecord .SET [] []).to_bytes = List.replicate 24 0 := by
  refine ⟨headerToBytes_length h, ?_, ?_, by decide⟩
  · have := headerToBytes_length (mkRecord .SET key value).header
    simp [AppendOnlyLogRecord.to_bytes, AppendOnlyLogPayload.to_bytes, mkRecord,
      HEADER_SIZE] at this ⊢
    omega
  · have := headerToBytes_length (mkRecord .SET key value).header
    simp [engineSet, MonolithicFile.enter, handleWrite, OpenFileMode.hasW,
      OpenFileMode.hasA, mkRecord, AppendOnlyLogPayload.to_bytes, HEADER_SIZE] at this ⊢
    omega

/-- Claim C5: decoding the stream produced by encoding a record (operation
in `{SET, DELETE}`, empty value for `DELETE`, sizes within the u64 header
fields) yields the identical record, with the stream position advanced by
exactly the record size. -/
theorem c5_codec_roundtrip (op : AppendOnlyLogOperation) (key value : Bytes)
    (_hdel : op = .DELETE → value = [])
    (hk : key.length < 2 ^ 64) (hv : value.length < 2 ^ 64) :
    AppendOnlyLogRecord.from_stream (mkRecord op key value).to_bytes 0 =
      .ok (some (mkRecord op key value, (mkRecord op key value).header.record_size)) := by
  have := from_stream_encode (mkRecord op key value).to_bytes 0 (mkRecord op key value) []
    ⟨rfl, rfl, hk, hv⟩ (by simp)
  simpa using this

/-- Witness for C5 at the concrete record `DELETE b"\x03", b""`. -/
theorem c5_codec_roundtrip_witness :
    AppendOnlyLogRecord.from_stream (mkRecord .DELETE [3] []).to_bytes 0 =
      .ok (some (mkRecord .DELETE [3] [], (mkRecord .DELETE [3] []).header.record_size)) :=
  c5_codec_roundtrip .DELETE [3] [] (fun _ => rfl) (by decide) (by decide)

theorem engineSet_eq (st : EngineState) (key value : Bytes) :
    engineSet st key value =
      { log := st.log ++ (mkRecord .SET key value).to_bytes,
        index := st.index.set key st.log.length } := by
  simp [engineSet, MonolithicFile.enter, handleWrite, OpenFileMode.hasA,
    OpenFileMode.hasW, AppendOnlyLogRecord.to_bytes, AppendOnlyLogPayload.to_bytes,
    mkRecord]

/-- Claim C3: for every key and value (arbitrary byte strings with lengths
up to `2^20`), in any engine state, `set(k, v)` followed by `get(k)` returns
exactly `v`. -/
theorem c3_set_then_get (st : EngineState) (key value : Bytes)
    (hk : key.length ≤ 2 ^ 20) (hv : value.length ≤ 2 ^ 20) :
    (engineGet (engineSet st key value) key).1 = .ok value := by
  have hwf : (mkRecord .SET key value).wf :=
    ⟨rfl, rfl, lt_of_le_of_lt hk (by norm_num), lt_of_le_of_lt hv (by norm_num)⟩
  rw [engineSet_eq]
  have hdrop : (st.log ++ (mkRecord .SET key value).to_bytes).drop st.log.length =
      (mkRecord .SET key value).to_bytes ++ [] := by
    simp
  unfold engineGet
  have hfs := from_stream_encode _ _ _ _ hwf hdrop
  have hpk : (mkRecord .SET key value).payload.key = key := rfl
  have hpv : (mkRecord .SET key value).payload.value = value := rfl
  simp [Index.has, Index.set, hfs, hpk, hpv]

/-- Witness for C3 at a concrete state and pair: a non-empty prior log, a
binary key and value. -/
theorem c3_set_then_get_witness :
    (engineGet (engineSet ⟨[9, 9], Index.empty⟩ [0, 255] [7, 0]) [0, 255]).1 =
      .ok [7, 0] :=
  c3_set_then_get ⟨[9, 9], Index.empty⟩ [0, 255] [7, 0] (by decide) (by decide)

/-- Claim C4: after `set(k, v)` followed by `delete(k)`, `get(k)` fails with
the `KeyNotFound` error kind carrying the key, and the index's `has(k)` is
false. -/
theorem c4_tombstone (st : EngineState) (key value : Bytes) :
    (engineGet (engineDelete (engineSet st key value) key) key).1 =
      .error (.keyNotFound key) ∧
    (engineDelete (engineSet st key value) key).index.has key = false := by
  rw [engineSet_eq]
  have hdel : engineDelete
      { log := st.log ++ (mkRecord .SET key value).to_bytes,
        index := st.index.set key st.log.length } key =
      { log := (st.log ++ (mkRecord .SET key value).to_bytes) ++
          (mkRecord .DELETE key []).to_bytes,
        index := (st.index.set key st.log.length).delete key } := by
    simp [engineDelete, Index.has, Index.set, MonolithicFile.enter, handleWrite,
      OpenFileMode.hasA, OpenFileMode.hasW, AppendOnlyLogRecord.to_bytes,
      AppendOnlyLogPayload.to_bytes, mkRecord]
  rw [hdel]
  constructor
  · unfold engineGet
    simp [Index.has, Index.delete]
  · simp [Index.has, Index.delete]

/-- Claim C2 (code bug, evaluated at the failing input): the engine
constructor never seeks to offset 0 before `_build_index`, and opening the
monolithic file in the engine's `"a+b"` mode leaves the handle at
end-of-file, so over a log containing one `SET(b"k", b"v")` record the
startup scan decodes nothing and the rebuilt index does not contain `b"k"`
— although the last observed operation for `b"k"` is a `SET` at offset 0,
which is what the index is specified to hold.  (Scanning the same log from
position 0, as the spec's startup-scan step 1 prescribes, does produce that
index entry.) -/
theorem c2_startup_scan_misses_records :
    engineInit .apb (encodeLog [mkRecord .SET [107] [118]]) Index.empty =
      .ok ⟨encodeLog [mkRecord .SET [107] [118]], Index.empty⟩ ∧
    Index.empty.has [107] = false ∧
    lastObservedOffsetSpec (logWithOffsets [mkRecord .SET [107] [118]] 0) none [107] =
      some 0 ∧
    buildIndex (encodeLog [mkRecord .SET [107] [118]]) 0 Index.empty =
      .ok (Index.empty.set [107] 0) := by
  refine ⟨rfl, rfl, rfl, rfl⟩

/-- Claim C10: tablespaces can share segment files.  The segment file of
tablespace `"t_s"` with index 1 (`t_s_0000000001.dblog`) is matched by the
directory glob for the distinct tablespace `"t"` and is accepted by
`Segment.from_filepath` (which never compares the parsed tablespace with the
backend's own), so `_load_segments` for `"t"` puts it — and hence its bytes
— into the `"t"` backend's segment list. -/
theorem c10_tablespace_mixing :
    "t_s".toList ≠ "t".toList ∧
    globMatchesSegment "t".toList (segmentFilename "t_s".toList 1) = true ∧
    parseSegmentName (segmentFilename "t_s".toList 1) = some ("t_s".toList, 1) ∧
    loadSegments "t".toList [segmentFilename "t_s".toList 1] = [("t_s".toList, 1)] := by
  refine ⟨by decide, by decide, by decide, ?_⟩
  unfold loadSegments
  have h1 : ([segmentFilename "t_s".toList 1].filter
      (globMatchesSegment "t".toList)).filterMap parseSegmentName =
      [("t_s".toList, 1)] := by decide
  rw [h1]
  simp

theorem list_take_set {α : Type} (l : List α) (i : Nat) (a : α) :
    (l.set i a).take i = l.take i := by
  induction l generalizing i with
  | nil => simp
  | cons x xs ih =>
    cases i with
    | zero => simp
    | succ n => simp [List.set, List.take, ih]

theorem list_getD_set_self {α : Type} (l : List α) (i : Nat) (a d : α)
    (h : i < l.length) : (l.set i a).getD i d = a := by
  simp [List.getD_eq_getElem?_getD, List.getElem?_set_self, h]

theorem sumSizes_append (l₁ l₂ : List Bytes) :
    sumSizes (l₁ ++ l₂) = sumSizes l₁ + sumSizes l₂ := by
  simp [sumSizes]

theorem sumSizes_take_getD_le (segs : List Bytes) :
    ∀ i, sumSizes (segs.take i) + (segs.getD i []).length ≤ sumSizes segs := by
  induction segs with
  | nil => intro i; simp [sumSizes]
  | cons c rest ih =>
    intro i
    cases i with
    | zero => simp [sumSizes]
    | succ n =>
      have := ih n
      simp only [List.take, List.getD_cons_succ, sumSizes, List.map, List.sum_cons] at *
      omega

theorem sumSizes_take_le (segs : List Bytes) (i : Nat) :
    sumSizes (segs.take i) ≤ sumSizes segs := by
  have := sumSizes_take_getD_le segs i
  omega

theorem findSegment_none_of_ge (segs : List Bytes) :
    ∀ i acc T, acc + sumSizes segs ≤ T → findSegment segs T i acc = none := by
  induction segs with
  | nil => intro i acc T _; rfl
  | cons c rest ih =>
    intro i acc T hT
    have hsum : sumSizes (c :: rest) = c.length + sumSizes rest := by
      simp [sumSizes]
    rw [findSegment]
    rw [if_neg]
    · exact ih (i + 1) (acc + c.length) T (by omega)
    · omega

theorem findSegment_some_lt (segs : List Bytes) :
    ∀ i acc T j a, findSegment segs T i acc = some (j, a) → j < i + segs.length := by
  induction segs with
  | nil => intro i acc T j a h; simp [findSegment] at h
  | cons c rest ih =>
    intro i acc T j a h
    rw [findSegment] at h
    split at h
    · simp only [Option.some.injEq, Prod.mk.injEq] at h
      obtain ⟨h1, _⟩ := h
      subst h1
      simp only [List.length_cons]
      omega
    · have := ih (i + 1) (acc + c.length) T j a h
      simp only [List.length_cons]
      omega

theorem findSegment_zero (segs : List Bytes) :
    ∀ i, (∃ j, findSegment segs 0 i 0 = some (j, 0)) ∨
      (findSegment segs 0 i 0 = none ∧ sumSizes segs = 0) := by
  induction segs with
  | nil => intro i; right; exact ⟨rfl, rfl⟩
  | cons c rest ih =>
    intro i
    by_cases hc : 0 < c.length
    · left
      exact ⟨i, by rw [findSegment, if_pos ⟨Nat.le_refl 0, by omega⟩]⟩
    · have hc0 : c.length = 0 := by omega
      have hstep : findSegment (c :: rest) 0 i 0 = findSegment rest 0 (i + 1) 0 := by
        rw [findSegment, if_neg (by omega), hc0]
      rcases ih (i + 1) with ⟨j, hj⟩ | ⟨hn, hs⟩
      · left; exact ⟨j, by rw [hstep]; exact hj⟩
      · right
        refine ⟨by rw [hstep]; exact hn, ?_⟩
        simp [sumSizes, hc0] at hs ⊢
        exact hs

/-- Claim C6 (counterexample): the segment cap can be exceeded by a single
write.  A segmented backend in `"a+b"` mode with `max_size = 4` over one
existing 3-byte segment, after a scoped open and a `seek(0)` (both ordinary
operations), computes `space_left` from the handle position (`tell() = 0`)
while the `O_APPEND` write lands at the physical end: writing 4 bytes makes
the single segment file 7 > 4 bytes long, and no rollover happens. -/
theorem c6_write_exceeds_cap :
    ∃ st1 st2 st3,
      (SegmentedFile.mk .apb 4 [[1, 2, 3]] 0 0 0 false).enter = .ok st1 ∧
      st1.seek 0 .seekSet = .ok (0, st2) ∧
      st2.write [9, 9, 9, 9] = .ok (4, st3) ∧
      ∃ c ∈ st3.segments, st3.maxSize < c.length := by
  refine ⟨_, _, _, rfl, rfl, rfl, ?_⟩
  decide

/-- Claim C7 (counterexample): seeking past the end of all segments does not
clamp the handle to the last segment's size.  Over one 3-byte segment opened
read-only, `seek(10)` activates the last segment and issues
`handle.seek(10 - 0)`, leaving the local position 10, which is beyond that
segment's EOF (size 3), and returns 10. -/
theorem c7_seek_past_end_not_clamped :
    ∃ st1 st2,
      (SegmentedFile.mk .rb 16 [[1, 2, 3]] 0 0 0 false).enter = .ok st1 ∧
      st1.seek 10 .seekSet = .ok (10, st2) ∧
      st2.cur = 0 ∧
      (st2.segments.getD st2.cur []).length = 3 ∧
      st2.pos = 10 ∧
      st2.pos ≠ (st2.segments.getD st2.cur []).length := by
  refine ⟨_, _, rfl, rfl, ?_⟩
  decide

/-- Claim C8 (counterexample): the monolithic backend does not clamp a
negative seek target — it delegates 1:1 to the OS handle, whose `lseek`
rejects negative positions with `EINVAL` — so the two backends differ: on
the same request the segmented backend returns the clamped position 0 while
the monolithic one fails. -/
theorem c8_monolithic_negative_seek_fails :
    (MonolithicFile.mk .rb [1, 2] 0 true).seek (-1) .seekSet = .error .invalidArgument ∧
    ∃ st', (SegmentedFile.mk .rb 16 [[1, 2]] 0 0 0 true).seek (-1) .seekSet =
      .ok (0, st') := by
  exact ⟨rfl, _, rfl⟩

theorem segInv_activate (st : SegmentedFile) (i : Nat)
    (h : i < st.segments.length) : SegInv (st.activate i) := by
  intro _
  refine ⟨?_, ?_, ?_⟩
  · have : (st.activate i).segments.length = st.segments.length := by
      simp [SegmentedFile.activate]
    intro hnil
    rw [hnil] at this
    simp at this
    omega
  · simpa [SegmentedFile.activate] using h
  · rfl

theorem segInv_createNext (st : SegmentedFile) : SegInv st.createNext := by
  unfold SegmentedFile.createNext
  apply segInv_activate
  simp

theorem segInv_pos_update (st : SegmentedFile) (p : Nat) (h : SegInv st) :
    SegInv { st with pos := p } :=
  fun ho => h ho

theorem segInv_set_cur (st : SegmentedFile) (content : Bytes) (p : Nat)
    (h : SegInv st) :
    SegInv { st with segments := st.segments.set st.cur content, pos := p } := by
  intro ho
  obtain ⟨h1, h2, h3⟩ := h ho
  refine ⟨?_, by simpa using h2, ?_⟩
  · intro hnil
    have := congrArg List.length hnil
    simp at this
    exact h1 this
  · simpa [list_take_set] using h3

theorem segInv_writeLoopGo (fuel : Nat) :
    ∀ (st : SegmentedFile) (data : Bytes), SegInv st →
      SegInv (writeLoopGo fuel st data).1 := by
  induction fuel with
  | zero => intro st data h; exact h
  | succ fuel ih =>
    intro st data h
    match data with
    | [] => exact h
    | d :: ds =>
      rw [writeLoopGo]
      apply ih
      apply segInv_set_cur
      by_cases hroll : st.maxSize ≤ st.pos
      · simp only [if_pos hroll]
        exact segInv_createNext st
      · simp only [if_neg hroll]
        exact h

theorem segInv_readLoopGo (fuel : Nat) :
    ∀ (st : SegmentedFile) (size : Int) (bytesRead : Nat), SegInv st →
      SegInv (readLoopGo fuel st size bytesRead).2 := by
  induction fuel with
  | zero => intro st size bytesRead h; exact h
  | succ fuel ih =>
    intro st size bytesRead h
    rw [readLoopGo]
    split
    · dsimp only
      repeat' split
      all_goals
        first
        | exact h
        | exact segInv_pos_update st _ h
        | (apply ih; apply segInv_activate; assumption)
        | exact ih _ _ _ (segInv_pos_update st _ h)
    · exact h

theorem segInv_seek (st : SegmentedFile) (offset : Int) (whence : Whence)
    (h : SegInv st) :
    ∀ n st', st.seek offset whence = .ok (n, st') → SegInv st' := by
  intro n st' hs
  unfold SegmentedFile.seek at hs
  by_cases hopen : st.isOpen = true
  · rw [if_neg (by simp [hopen])] at hs
    dsimp only at hs
    by_cases hfast : st.base ≤ (st.resolveTarget offset whence).toNat ∧
        (st.resolveTarget offset whence).toNat ≤
          st.base + (st.segments.getD st.cur []).length
    · rw [if_pos hfast] at hs
      simp only [Except.ok.injEq, Prod.mk.injEq] at hs
      obtain ⟨-, h2⟩ := hs
      subst h2
      exact segInv_pos_update st _ h
    · rw [if_neg hfast] at hs
      rcases hfind : findSegment st.segments (st.resolveTarget offset whence).toNat 0 0
        with - | ⟨i, acc⟩
      · rw [hfind] at hs
        dsimp only at hs
        by_cases hemp : st.segments.isEmpty = true
        · rw [if_pos hemp] at hs
          by_cases hcreate : (st.mode.hasW || st.mode.hasA) = true
          · rw [if_pos hcreate] at hs
            simp only [Except.ok.injEq, Prod.mk.injEq] at hs
            obtain ⟨-, h2⟩ := hs
            subst h2
            exact segInv_createNext st
          · rw [if_neg hcreate] at hs
            simp only [Except.ok.injEq, Prod.mk.injEq] at hs
            obtain ⟨-, h2⟩ := hs
            subst h2
            exact h
        · rw [if_neg hemp] at hs
          simp only [Except.ok.injEq, Prod.mk.injEq] at hs
          obtain ⟨-, h2⟩ := hs
          subst h2
          apply segInv_pos_update
          apply segInv_activate
          have : st.segments.length ≠ 0 := by
            intro h0
            exact hemp (by simpa [List.isEmpty_iff_length_eq_zero] using h0)
          omega
      · rw [hfind] at hs
        dsimp only at hs
        simp only [Except.ok.injEq, Prod.mk.injEq] at hs
        obtain ⟨-, h2⟩ := hs
        subst h2
        apply segInv_pos_update
        apply segInv_activate
        have := findSegment_some_lt st.segments 0 0 _ i acc hfind
        omega
  · rw [if_pos (by simp [Bool.not_eq_true] at hopen ⊢; exact hopen)] at hs
    exact absurd hs (by simp)

theorem segInv_enter (st : SegmentedFile) (h : SegInv st) :
    ∀ st', st.enter = .ok st' → SegInv st' := by
  intro st' hs
  unfold SegmentedFile.enter at hs
  by_cases hopen : st.isOpen = true
  · rw [if_pos (by simpa using hopen)] at hs
    simp only [Except.ok.injEq] at hs
    subst hs
    exact h
  · rw [if_neg (by simpa using hopen)] at hs
    by_cases hw : st.mode.hasW = true
    · simp only [hw, if_true, List.isEmpty_nil, Bool.true_or] at hs
      simp only [Except.ok.injEq] at hs
      subst hs
      exact segInv_createNext _
    · simp only [hw, Bool.false_eq_true, if_false, Bool.false_or] at hs
      by_cases hemp : st.segments.isEmpty = true
      · simp only [hemp, if_true] at hs
        split at hs
        · simp only [Except.ok.injEq] at hs
          subst hs
          exact segInv_createNext _
        · exact absurd hs (by simp)
      · simp only [hemp, Bool.false_eq_true, if_false] at hs
        have hlen : st.segments.length ≠ 0 := by
          intro h0
          exact hemp (by simpa [List.isEmpty_iff_length_eq_zero] using h0)
        split at hs
        · simp only [Except.ok.injEq] at hs
          subst hs
          exact segInv_pos_update _ _ (segInv_activate _ _ (by omega))
        · simp only [Except.ok.injEq] at hs
          subst hs
          exact segInv_pos_update _ _ (segInv_activate _ _ (by omega))

/-- Claim C9: whenever a `SegmentedFile` is open, its segment list is
non-empty, `_current_segment_index` is a valid position in it, and the
cached `_current_segment_base_offset` equals the sum of the sizes of the
segments strictly before the active one; `write`, `read`, `seek`, `tell`,
scoped open (`__enter__`) and `close` all preserve this invariant. -/
theorem c9_segmented_invariant (st : SegmentedFile) (h : SegInv st) :
    (∀ data n st', st.write data = .ok (n, st') → SegInv st') ∧
    (∀ size bs st', st.read size = .ok (bs, st') → SegInv st') ∧
    (∀ offset whence n st', st.seek offset whence = .ok (n, st') → SegInv st') ∧
    (∀ n st', st.tell = .ok (n, st') → SegInv st') ∧
    (∀ st', st.enter = .ok st' → SegInv st') ∧
    SegInv st.close := by
  refine ⟨?_, ?_, fun offset whence => segInv_seek st offset whence h, ?_,
    segInv_enter st h, ?_⟩
  · intro data n st' hw
    unfold SegmentedFile.write at hw
    split at hw
    · exact absurd hw (by simp)
    · split at hw
      · exact absurd hw (by simp)
      · simp only [Except.ok.injEq, Prod.mk.injEq] at hw
        obtain ⟨-, h2⟩ := hw
        subst h2
        exact segInv_writeLoopGo _ st data h
  · intro size bs st' hr
    unfold SegmentedFile.read at hr
    split at hr
    · exact absurd hr (by simp)
    · split at hr
      · exact absurd hr (by simp)
      · simp only [Except.ok.injEq] at hr
        have h2 := congrArg Prod.snd hr
        simp only at h2
        subst h2
        exact segInv_readLoopGo _ st size 0 h
  · intro n st' ht
    unfold SegmentedFile.tell at ht
    split at ht
    · exact absurd ht (by simp)
    · simp only [Except.ok.injEq, Prod.mk.injEq] at ht
      obtain ⟨-, h2⟩ := ht
      subst h2
      exact h
  · intro ho
    simp [SegmentedFile.close] at ho

/-- Witness for C9 at a concrete open two-segment state whose cached base
offset (2) is the size of the segment before the active one. -/
theorem c9_segmented_invariant_witness :
    (∀ data n st', (SegmentedFile.mk .apb 4 [[1, 2], [3]] 1 1 2 true).write data =
        .ok (n, st') → SegInv st') ∧
    (∀ size bs st', (SegmentedFile.mk .apb 4 [[1, 2], [3]] 1 1 2 true).read size =
        .ok (bs, st') → SegInv st') ∧
    (∀ offset whence n st',
        (SegmentedFile.mk .apb 4 [[1, 2], [3]] 1 1 2 true).seek offset whence =
          .ok (n, st') → SegInv st') ∧
    (∀ n st', (SegmentedFile.mk .apb 4 [[1, 2], [3]] 1 1 2 true).tell =
        .ok (n, st') → SegInv st') ∧
    (∀ st', (SegmentedFile.mk .apb 4 [[1, 2], [3]] 1 1 2 true).enter = .ok st' →
        SegInv st') ∧
    SegInv (SegmentedFile.mk .apb 4 [[1, 2], [3]] 1 1 2 true).close :=
  c9_segmented_invariant (SegmentedFile.mk .apb 4 [[1, 2], [3]] 1 1 2 true) (by decide)

theorem list_set_append_last {α : Type} (l : List α) (a b : α) :
    (l ++ [a]).set l.length b = l ++ [b] := by
  induction l with
  | nil => rfl
  | cons x xs ih => simp [List.set, ih]

theorem list_getD_mem {α : Type} (l : List α) (i : Nat) (d : α)
    (h : i < l.length) : l.getD i d ∈ l := by
  rw [List.getD_eq_getElem?_getD, List.getElem?_eq_getElem h]
  simp [List.getElem_mem]

theorem openSegment_nil (mode : OpenFileMode) : openSegment mode [] = ([], 0) := by
  unfold openSegment
  split
  · rfl
  · split <;> rfl

theorem createNext_fields (st : SegmentedFile) :
    st.createNext.segments = st.segments ++ [[]] ∧
    st.createNext.cur = st.segments.length ∧
    st.createNext.pos = 0 ∧
    st.createNext.maxSize = st.maxSize ∧
    st.createNext.mode = st.mode := by
  unfold SegmentedFile.createNext SegmentedFile.activate
  have hg : (st.segments ++ [[]]).getD ((st.segments ++ [[]]).length - 1) [] =
      ([] : Bytes) := by
    simp [List.getD_eq_getElem?_getD]
  simp only [hg, openSegment_nil]
  refine ⟨?_, by simp, by trivial, by trivial, by trivial⟩
  simp only [List.length_append, List.length_cons, List.length_nil, Nat.zero_add,
    Nat.add_sub_cancel]
  exact list_set_append_last st.segments [] []

theorem handleWrite_of_append (mode : OpenFileMode) (content : Bytes) (pos : Nat)
    (data : Bytes) (hA : mode.hasA = true) :
    handleWrite mode content pos data = (content ++ data, content.length + data.length) := by
  simp [handleWrite, hA]

theorem handleWrite_of_pos (mode : OpenFileMode) (content : Bytes) (pos : Nat)
    (data : Bytes) (hA : mode.hasA = false) (hp : pos ≤ content.length) :
    (handleWrite mode content pos data).1.length = max content.length (pos + data.length) ∧
    (handleWrite mode content pos data).2 = pos + data.length := by
  rw [handleWrite, if_neg (by simp [hA])]
  refine ⟨?_, rfl⟩
  simp only [List.length_append, List.length_take, List.length_replicate,
    List.length_drop]
  omega

theorem writeCapInv_set_cur (st : SegmentedFile) (w : Bytes × Nat)
    (h : WriteCapInv st) (hw1 : w.1.length ≤ st.maxSize) (hw2 : w.2 ≤ w.1.length)
    (happ : st.mode.hasA = true → w.2 = w.1.length) :
    WriteCapInv { st with segments := st.segments.set st.cur w.1, pos := w.2 } := by
  obtain ⟨hcap, hcur, -, -⟩ := h
  have hgd : ((st.segments.set st.cur w.1).getD st.cur []) = w.1 :=
    list_getD_set_self _ _ _ _ hcur
  refine ⟨?_, by simpa using hcur, ?_, ?_⟩
  · intro c hc
    rcases List.mem_or_eq_of_mem_set hc with h' | h'
    · exact hcap c h'
    · subst h'
      exact hw1
  · dsimp only
    rw [hgd]
    exact hw2
  · intro hA
    dsimp only
    rw [hgd]
    exact happ hA

theorem writeCapInv_createNext (st : SegmentedFile) (h : WriteCapInv st) :
    WriteCapInv st.createNext := by
  obtain ⟨hs, hc, hp, hm, hmo⟩ := createNext_fields st
  obtain ⟨hcap, -, -, -⟩ := h
  have hgd : (st.createNext.segments.getD st.createNext.cur []) = ([] : Bytes) := by
    rw [hs, hc]
    simp [List.getD_eq_getElem?_getD]
  refine ⟨?_, ?_, ?_, ?_⟩
  · intro c hc'
    rw [hs] at hc'
    rcases List.mem_append.mp hc' with h' | h'
    · rw [hm]
      exact hcap c h'
    · simp at h'
      subst h'
      simp
  · rw [hc, hs]
    simp
  · rw [hp, hgd]
    simp
  · intro _
    rw [hp, hgd]
    rfl

theorem writeCapInv_writeLoopGo (fuel : Nat) :
    ∀ (st : SegmentedFile) (data : Bytes), WriteCapInv st → st.pos ≤ st.maxSize →
      WriteCapInv (writeLoopGo fuel st data).1 ∧
      (writeLoopGo fuel st data).1.maxSize = st.maxSize ∧
      (writeLoopGo fuel st data).1.pos ≤ (writeLoopGo fuel st data).1.maxSize := by
  induction fuel with
  | zero => intro st data h hple; exact ⟨h, rfl, hple⟩
  | succ fuel ih =>
    intro st data h hple
    match data with
    | [] => exact ⟨h, rfl, hple⟩
    | d :: ds =>
      rw [writeLoopGo]
      dsimp only
      set st1 := if st.maxSize ≤ st.pos then st.createNext else st with hst1
      have hmax1 : st1.maxSize = st.maxSize := by
        rw [hst1]
        split
        · exact (createNext_fields st).2.2.2.1
        · rfl
      have h1 : WriteCapInv st1 := by
        rw [hst1]
        split
        · exact writeCapInv_createNext st h
        · exact h
      have hple1 : st1.pos ≤ st1.maxSize := by
        rw [hst1]
        split
        · rw [(createNext_fields st).2.2.1]
          omega
        · omega
      obtain ⟨hcap1, hcur1, hpos1, happ1⟩ := h1
      set chunk := (d :: ds).take (min (d :: ds).length (st1.maxSize - st1.pos)) with hchunk
      have hchunklen : chunk.length = min (d :: ds).length (st1.maxSize - st1.pos) := by
        rw [hchunk]
        simp
      have hfits : st1.pos + chunk.length ≤ st1.maxSize := by
        rw [hchunklen]
        have := Nat.min_le_right (d :: ds).length (st1.maxSize - st1.pos)
        omega
      have hcont : (st1.segments.getD st1.cur []).length ≤ st1.maxSize :=
        hcap1 _ (list_getD_mem _ _ _ hcur1)
      have hw : (handleWrite st1.mode (st1.segments.getD st1.cur []) st1.pos chunk).1.length ≤
            st1.maxSize ∧
          (handleWrite st1.mode (st1.segments.getD st1.cur []) st1.pos chunk).2 ≤
            (handleWrite st1.mode (st1.segments.getD st1.cur []) st1.pos chunk).1.length ∧
          (st1.mode.hasA = true →
            (handleWrite st1.mode (st1.segments.getD st1.cur []) st1.pos chunk).2 =
              (handleWrite st1.mode (st1.segments.getD st1.cur []) st1.pos chunk).1.length) := by
        by_cases hA : st1.mode.hasA = true
        · rw [handleWrite_of_append _ _ _ _ hA]
          have hpe := happ1 hA
          refine ⟨?_, ?_, fun _ => ?_⟩ <;> simp only [List.length_append] <;> omega
        · have hAf : st1.mode.hasA = false := by
            simpa using hA
          obtain ⟨hl, hp⟩ := handleWrite_of_pos st1.mode _ st1.pos chunk hAf hpos1
          rw [hl, hp]
          refine ⟨by omega, by omega, ?_⟩
          intro hA'
          exact absurd hA' (by simp [hAf])
      have h2 := writeCapInv_set_cur st1
        (handleWrite st1.mode (st1.segments.getD st1.cur []) st1.pos chunk)
        ⟨hcap1, hcur1, hpos1, happ1⟩ hw.1 hw.2.1 hw.2.2
      have hple2 :
          (handleWrite st1.mode (st1.segments.getD st1.cur []) st1.pos chunk).2 ≤
            st1.maxSize := le_trans hw.2.1 hw.1
      have := ih _ ((d :: ds).drop (min (d :: ds).length (st1.maxSize - st1.pos))) h2 hple2
      simpa [hmax1] using this

theorem writeLoopGo_exact_fill (st : SegmentedFile) (data : Bytes)
    (hfill : st.pos + data.length = st.maxSize) :
    (writeLoopGo (data.length + 1) st data).1.segments.length = st.segments.length := by
  cases data with
  | nil => rfl
  | cons d ds =>
    rw [writeLoopGo]
    dsimp only
    have hnr : ¬ st.maxSize ≤ st.pos := by
      simp only [List.length_cons] at hfill
      omega
    rw [if_neg hnr]
    have hmin : min (d :: ds).length (st.maxSize - st.pos) = (d :: ds).length := by
      simp only [List.length_cons] at hfill ⊢
      omega
    rw [hmin, List.drop_length]
    simp only [List.length_cons, writeLoopGo]
    simp [List.length_set]

/-- Claim C6 (amended): provided the write starts from a well-formed state —
every segment within the cap, a valid active segment, the handle position
inside the active segment and, in append modes, exactly at its end (where
scoped open puts it; the C6 counterexample shows the cap breaks after an
append-mode `seek` backwards) — a single `write` call of any length leaves
no segment file larger than `max_size`, and a write that exactly fills the
cap does not create a new segment. -/
theorem c6_segment_cap (st : SegmentedFile) (data : Bytes) (hinv : WriteCapInv st) :
    ∀ n st', st.write data = .ok (n, st') →
      (∀ c ∈ st'.segments, c.length ≤ st.maxSize) ∧
      (st.pos + data.length = st.maxSize → st'.segments.length = st.segments.length) := by
  intro n st' hw
  unfold SegmentedFile.write at hw
  split at hw
  · exact absurd hw (by simp)
  · split at hw
    · exact absurd hw (by simp)
    · simp only [Except.ok.injEq, Prod.mk.injEq] at hw
      obtain ⟨-, h2⟩ := hw
      subst h2
      have hple : st.pos ≤ st.maxSize := by
        obtain ⟨hcap, hcur, hpos, -⟩ := hinv
        exact le_trans hpos (hcap _ (list_getD_mem _ _ _ hcur))
      have hloop := writeCapInv_writeLoopGo (data.length + 1) st data hinv hple
      refine ⟨?_, fun hfill => writeLoopGo_exact_fill st data hfill⟩
      intro c hc
      have hc' := hloop.1.1 c hc
      rw [hloop.2.1] at hc'
      exact hc'

/-- Witness for C6 (amended) at a fresh append-mode backend (one empty
segment, cap 4) writing 5 bytes: the write rolls over into a second segment
and both resulting files respect the cap. -/
theorem c6_segment_cap_witness :
    (∀ c ∈ (SegmentedFile.mk .apb 4 [[1, 2, 3, 4], [5]] 1 1 4 true).segments,
        c.length ≤ (SegmentedFile.mk .apb 4 [[]] 0 0 0 true).maxSize) ∧
    ((SegmentedFile.mk .apb 4 [[]] 0 0 0 true).pos + ([1, 2, 3, 4, 5] : Bytes).length =
        (SegmentedFile.mk .apb 4 [[]] 0 0 0 true).maxSize →
      (SegmentedFile.mk .apb 4 [[1, 2, 3, 4], [5]] 1 1 4 true).segments.length =
        (SegmentedFile.mk .apb 4 [[]] 0 0 0 true).segments.length) :=
  c6_segment_cap (SegmentedFile.mk .apb 4 [[]] 0 0 0 true) [1, 2, 3, 4, 5] (by decide) 5
    (SegmentedFile.mk .apb 4 [[1, 2, 3, 4], [5]] 1 1 4 true) rfl

/-- Claim C7 (amended): on an open segmented backend (well-formed, hence at
least one segment), seeking to a target `T` past the end of all segments
activates the last segment and positions its handle at
`T - (sum of the sizes of the segments before the last)` — at or beyond that
segment's EOF, not clamped to it — and returns `T`. -/
theorem c7_seek_past_end (st : SegmentedFile) (h : SegInv st)
    (ho : st.isOpen = true) (T : Nat) (hT : sumSizes st.segments < T) :
    ∃ st', st.seek (T : Int) .seekSet = .ok (T, st') ∧
      st'.cur = st.segments.length - 1 ∧
      st'.pos = T - sumSizes (st.segments.take (st.segments.length - 1)) ∧
      (st.segments.getD (st.segments.length - 1) []).length ≤ st'.pos := by
  obtain ⟨hne, hcur, hbase⟩ := h ho
  have hlen0 : st.segments.length ≠ 0 := by
    intro e
    exact hne (List.eq_nil_of_length_eq_zero e)
  unfold SegmentedFile.seek
  rw [if_neg (by simp [ho])]
  dsimp only
  have hrt : (st.resolveTarget (T : Int) .seekSet).toNat = T := by
    simp [SegmentedFile.resolveTarget]
  rw [hrt]
  have htk := sumSizes_take_getD_le st.segments st.cur
  rw [if_neg (by omega)]
  rw [findSegment_none_of_ge st.segments 0 0 T (by omega)]
  dsimp only
  rw [if_neg (by simp [List.isEmpty_iff, hne])]
  refine ⟨_, rfl, ?_, ?_, ?_⟩
  · simp [SegmentedFile.activate]
  · show T - (st.activate (st.segments.length - 1)).base = _
    unfold SegmentedFile.activate
    dsimp only
    rw [list_take_set]
  · have hbase' : (st.activate (st.segments.length - 1)).base =
        sumSizes (st.segments.take (st.segments.length - 1)) := by
      unfold SegmentedFile.activate
      dsimp only
      rw [list_take_set]
    show (st.segments.getD (st.segments.length - 1) []).length ≤
      T - (st.activate (st.segments.length - 1)).base
    rw [hbase']
    have := sumSizes_take_getD_le st.segments (st.segments.length - 1)
    omega

/-- Witness for C7 (amended) at a concrete open backend with two segments of
sizes 2 and 1, seeking to 9 (past the total size 3). -/
theorem c7_seek_past_end_witness :
    ∃ st', (SegmentedFile.mk .rb 16 [[1, 2], [3]] 0 0 0 true).seek (9 : Int) .seekSet =
        .ok (9, st') ∧
      st'.cur = (SegmentedFile.mk .rb 16 [[1, 2], [3]] 0 0 0 true).segments.length - 1 ∧
      st'.pos = 9 - sumSizes ((SegmentedFile.mk .rb 16 [[1, 2], [3]] 0 0 0 true).segments.take
        ((SegmentedFile.mk .rb 16 [[1, 2], [3]] 0 0 0 true).segments.length - 1)) ∧
      ((SegmentedFile.mk .rb 16 [[1, 2], [3]] 0 0 0 true).segments.getD
          ((SegmentedFile.mk .rb 16 [[1, 2], [3]] 0 0 0 true).segments.length - 1) []).length ≤
        st'.pos :=
  c7_seek_past_end (SegmentedFile.mk .rb 16 [[1, 2], [3]] 0 0 0 true) (by decide) rfl 9
    (by decide)

/-- Claim C8 (amended): only the segmented backend clamps a negative
resolved seek target to 0 and returns the clamped position; the monolithic
backend delegates the seek 1:1 to the OS handle, which rejects a negative
resolved position (`EINVAL`), so the operation fails there and the two
backends disagree. -/
theorem c8_negative_seek (st : SegmentedFile) (h : SegInv st)
    (ho : st.isOpen = true) (offset : Int) (whence : Whence)
    (hneg : st.resolveTarget offset whence < 0)
    (m : MonolithicFile) (hmo : m.isOpen = true) (offM : Int) (whM : Whence)
    (hnegM : resolveWhence m.content.length m.pos offM whM < 0) :
    (∃ st', st.seek offset whence = .ok (0, st')) ∧
    m.seek offM whM = .error .invalidArgument := by
  obtain ⟨hne, hcur, hbase⟩ := h ho
  constructor
  · unfold SegmentedFile.seek
    rw [if_neg (by simp [ho])]
    dsimp only
    have hT : (st.resolveTarget offset whence).toNat = 0 :=
      Int.toNat_of_nonpos (le_of_lt hneg)
    rw [hT]
    by_cases hb : st.base = 0
    · rw [if_pos ⟨by omega, by omega⟩]
      exact ⟨_, rfl⟩
    · rw [if_neg (by omega)]
      rcases findSegment_zero st.segments 0 with ⟨j, hj⟩ | ⟨-, hs⟩
      · rw [hj]
        dsimp only
        exact ⟨_, rfl⟩
      · exfalso
        have := sumSizes_take_le st.segments st.cur
        omega
  · unfold MonolithicFile.seek
    rw [if_neg (by simp [hmo])]
    unfold osSeek
    dsimp only
    rw [if_pos hnegM]

/-- Witness for C8 (amended): a segmented backend and a monolithic file,
both open, seeking to resolved target `-1`. -/
theorem c8_negative_seek_witness :
    (∃ st', (SegmentedFile.mk .rb 16 [[5], [6]] 1 0 1 true).seek (-1) .seekSet =
      .ok (0, st')) ∧
    (MonolithicFile.mk .rb [1, 2] 0 true).seek (-3) .seekCur = .error .invalidArgument :=
  c8_negative_seek (SegmentedFile.mk .rb 16 [[5], [6]] 1 0 1 true) (by decide) rfl (-1)
    .seekSet (by decide) (MonolithicFile.mk .rb [1, 2] 0 true) rfl (-3) .seekCur (by decide)

end PyDb
